import Mathlib

/-!
Verification of the chat-max client (src/chatmax-v0-4-5.py).

We shallowly embed the pure logic the specification talks about:

* the preference-extraction merge performed inside `worker` in
  `send_message` (building an ordered, key-deduplicated list of
  preference entries and truncating it to a retention limit);
* the credential bootstrap selector in `build_main_window`;
* personality preset application (startup path and Personality window);
* `save_settings` update semantics on the persisted settings record.

Python strings are modelled as `List Char`; machine time is passed in as
an explicit `now : Nat` argument.
-/

namespace ChatMax

/-- The whitespace characters removed by Python `str.strip()`
(space, tab, newline, carriage return, vertical tab, form feed). -/
def isSpace (c : Char) : Bool :=
  c = ' ' || c = '\t' || c = '\n' || c = '\r' || c = '\x0b' || c = '\x0c'

/-- Python `str.strip()`: remove leading and trailing whitespace. -/
def strip (l : List Char) : List Char :=
  ((l.dropWhile isSpace).reverse.dropWhile isSpace).reverse

/-- Python `str.lower()` (character-wise lowering). -/
def lower (l : List Char) : List Char :=
  l.map Char.toLower

/-- The separator `" is "` used by `pref_key`. -/
def sepIs : List Char := [' ', 'i', 's', ' ']

/-- Python `low.split(' is ', 1)`: split at the first occurrence of the
separator, returning the part before it and the part after it, or `none`
when the separator does not occur (`' is ' in low` is false). -/
def splitFirstIs : List Char → Option (List Char × List Char)
  | [] => none
  | c :: rest =>
    if sepIs.isPrefixOf (c :: rest) then
      some ([], (c :: rest).drop sepIs.length)
    else
      match splitFirstIs rest with
      | some (pre, post) => some (c :: pre, post)
      | none => none

/-- `pref_key` from `worker` in `send_message`:
`low = line.lower()`; if `' is ' in low` return
`low.split(' is ', 1)[0].strip()`, else return `low`. -/
def pref_key (line : List Char) : List Char :=
  match splitFirstIs (lower line) with
  | some (pre, _) => strip pre
  | none => lower line

/-- One persisted preference entry `{line, ts}`. -/
structure PrefEntry where
  line : List Char
  ts : Nat
deriving DecidableEq, Repr

/-- The merge keeps a key list `keys` plus a dict `mapping`; since the
code maintains `keys` duplicate-free and exactly equal to the dict's
key set, the pair is modelled as one ordered association list. -/
abbrev PrefAcc := List (List Char × PrefEntry)

/-- The loop over `existing` in `worker`: strip the stored line, skip
empty lines, skip keys already seen (keep first occurrence), otherwise
append `{line: ln, ts: int(item.get('ts') or int(time.time()))}`
(a missing/zero `ts` is falsy in Python, hence replaced by `now`). -/
def addExisting (now : Nat) (acc : PrefAcc) (item : PrefEntry) : PrefAcc :=
  let ln := strip item.line
  if ln = [] then acc
  else
    let k := pref_key ln
    if acc.any (fun p => p.1 = k) then acc
    else acc ++ [(k, ⟨ln, if item.ts = 0 then now else item.ts⟩)]

/-- The loop over `new_lines` in `worker`: remove the key's current
occurrence from the order (if any), store the new entry, append the key
as newest. -/
def addNew (now : Nat) (acc : PrefAcc) (nl : List Char) : PrefAcc :=
  let k := pref_key nl
  (acc.eraseP fun p => p.1 = k) ++ [(k, ⟨nl, now⟩)]

/-- `new_lines = [l.strip() for l in extracted.splitlines() if l.strip()]`. -/
def newLines (raw : List (List Char)) : List (List Char) :=
  (raw.map strip).filter (fun l => l ≠ [])

/-- The association list built by the two merge loops. -/
def mergeAcc (existing : List PrefEntry) (raw : List (List Char)) (now : Nat) : PrefAcc :=
  (newLines raw).foldl (addNew now) (existing.foldl (addExisting now) [])

/-- `final = [mapping[k] for k in keys]`: the merged list before the
retention limit is enforced. -/
def preMerge (existing : List PrefEntry) (raw : List (List Char)) (now : Nat) : List PrefEntry :=
  (mergeAcc existing raw now).map (fun p => p.2)

/-- `while len(final) > int(limit): final.pop(0)`. -/
def dropOldest (limit : Nat) : List PrefEntry → List PrefEntry
  | [] => []
  | x :: xs => if limit < (x :: xs).length then dropOldest limit xs else x :: xs

/-- The whole preference merge of `worker`: fold the new lines into the
existing entries, then enforce the retention limit by dropping oldest. -/
def mergePrefs (existing : List PrefEntry) (raw : List (List Char)) (limit : Nat) (now : Nat) :
    List PrefEntry :=
  dropOldest limit (preMerge existing raw now)

/-- The normalized key of each entry of a merged list. -/
def keysOf (l : List PrefEntry) : List (List Char) :=
  l.map (fun en => pref_key en.line)

/-- The lines of a merged list. -/
def linesOf (l : List PrefEntry) : List (List Char) :=
  l.map PrefEntry.line

/-- The timestamp-free part of the association list: keys and lines. -/
def accShape (acc : PrefAcc) : List (List Char × List Char) :=
  acc.map (fun p => (p.1, p.2.line))

/-- Invariant of the merge association list: keys are duplicate-free,
each stored key is the normalized key of its entry's line, and every
stored line is stripped and non-empty. -/
def GoodAcc (acc : PrefAcc) : Prop :=
  (acc.map Prod.fst).Nodup ∧
    ∀ p ∈ acc, pref_key p.2.line = p.1 ∧ strip p.2.line = p.2.line ∧ p.2.line ≠ []

/-- Modelled from the spec: the index of the first case-insensitive
occurrence of `" is "` in the (lowered) line, used to state the spec's
description of the key verbatim. -/
def firstIsIdx (low : List Char) : Option Nat :=
  (List.range low.length).find? (fun i => sepIs.isPrefixOf (low.drop i))

/-- Modelled from the spec, verbatim reading of the claim: the key is
the substring of the line preceding the first occurrence of `" is "`
(matched case-insensitively), lower-cased — with no stripping — and the
whole lower-cased line when there is no occurrence. -/
def specKeyVerbatim (line : List Char) : List Char :=
  match firstIsIdx (lower line) with
  | some i => (lower line).take i
  | none => lower line

/-! ### Credential bootstrap selector (`build_main_window`) -/

/-- Which single credential prompt the startup flow shows. -/
inductive Prompt where
  | forApiKey
  | forEndpoint
deriving DecidableEq, Repr

/-- The startup credential selector of `build_main_window`: when both
credentials are missing, prompt for the one named by the persisted
`last_credential_deleted` marker (default: the API key); when only one
is missing, prompt for it only in the mode that uses it (`use_local`
prompts for the API key, server mode prompts for the endpoint). -/
def selectPrompt (hasKey hasEp : Bool) (lastDeleted : Option String) (useLocal : Bool) :
    Option Prompt :=
  if !hasKey && !hasEp then
    if lastDeleted = some "api_key" then some Prompt.forApiKey
    else if lastDeleted = some "server_endpoint" then some Prompt.forEndpoint
    else some Prompt.forApiKey
  else if useLocal then
    if !hasKey then some Prompt.forApiKey else none
  else
    if !hasEp then some Prompt.forEndpoint else none

/-! ### Personality presets -/

/-- The eight personality slider variables. -/
structure Sliders where
  friendliness : Int
  professionalism : Int
  profanity : Int
  age : Int
  gender : Int
  humor : Int
  sarcasm : Int
  introversion : Int
deriving DecidableEq, Repr

/-- A preset file's JSON payload: a bare list, an object with a
`values` list, or anything else. -/
inductive PresetJson where
  | listVals (vs : List Int)
  | objVals (vs : List Int)
  | other
deriving DecidableEq, Repr

/-- `vals = loaded` for a list, `vals = loaded.get('values')` for an
object with a `values` entry, `None` otherwise. -/
def presetVals : PresetJson → Option (List Int)
  | .listVals vs => some vs
  | .objVals vs => some vs
  | .other => none

/-- The startup application of a preset loaded from `personalities/`
(`build_main_window`): after the `len(vals) >= 8` guard, the sliders
are set one by one exactly as the source lines do — note the source
sets `friendliness_var` a second time with `vals[4]` and never sets
`gender_var`. -/
def applyFilePresetStartup (s : Sliders) (p : PresetJson) : Sliders :=
  match presetVals p with
  | none => s
  | some vs =>
    if 8 ≤ vs.length then
      let v := vs.take 8
      let s1 := { s with friendliness := v.getD 0 0 }
      let s2 := { s1 with professionalism := v.getD 1 0 }
      let s3 := { s2 with profanity := v.getD 2 0 }
      let s4 := { s3 with age := v.getD 3 0 }
      let s5 := { s4 with friendliness := v.getD 4 0 }
      let s6 := { s5 with humor := v.getD 5 0 }
      let s7 := { s6 with sarcasm := v.getD 6 0 }
      { s7 with introversion := v.getD 7 0 }
    else s

/-- The Personality window's loader for a `personalities/` file:
`presets[name] = tuple(int(x) for x in vals[:8])` under the
`len(vals) >= 8` guard. -/
def windowLoadPreset (p : PresetJson) : Option (List Int) :=
  match presetVals p with
  | some vs => if 8 ≤ vs.length then some (vs.take 8) else none
  | none => none

/-- `apply_preset` in `open_personality_window`: set all eight slider
variables from the preset tuple (no-op when the tuple is missing or
empty, per `if not vals: return`). -/
def applyPresetWindow (s : Sliders) (vals : List Int) : Sliders :=
  if vals = [] then s
  else
    let s1 := { s with friendliness := vals.getD 0 0 }
    let s2 := { s1 with professionalism := vals.getD 1 0 }
    let s3 := { s2 with profanity := vals.getD 2 0 }
    let s4 := { s3 with age := vals.getD 3 0 }
    let s5 := { s4 with gender := vals.getD 4 0 }
    let s6 := { s5 with humor := vals.getD 5 0 }
    let s7 := { s6 with sarcasm := vals.getD 6 0 }
    { s7 with introversion := vals.getD 7 0 }

/-! ### Persisted settings (`save_settings`) -/

/-- The fields of the persisted `settings.json` record that
`save_settings` touches; `none` models an absent key. -/
structure Settings where
  use_local_ai : Option Bool
  openai_api_key : Option String
  server_endpoint : Option String
  last_credential_deleted : Option String
  last_credential_deleted_ts : Option Nat
  ai_history_lines : Option Int
  pref_memory_lines : Option Int
  ai_model : Option String
deriving DecidableEq, Repr

/-- `save_settings`: start from the previously stored record `data`,
unconditionally overwrite `use_local_ai`, then for each optional
argument: `None` leaves the stored field alone, a truthy value stores
it, and a falsy (empty) string removes the field (for `last_deleted`,
both the marker and its timestamp); a truthy `last_deleted` also
records the current time. -/
def save_settings (data : Settings) (use_local : Bool) (api_key endpoint last_deleted : Option String)
    (ai_history_lines pref_memory_lines : Option Int) (ai_model : Option String) (now : Nat) :
    Settings :=
  let d0 := { data with use_local_ai := some use_local }
  let d1 := match api_key with
    | none => d0
    | some k => if k ≠ "" then { d0 with openai_api_key := some k }
                else { d0 with openai_api_key := none }
  let d2 := match endpoint with
    | none => d1
    | some e => if e ≠ "" then { d1 with server_endpoint := some e }
                else { d1 with server_endpoint := none }
  let d3 := match last_deleted with
    | none => d2
    | some ld => if ld ≠ "" then
                   { d2 with last_credential_deleted := some ld,
                             last_credential_deleted_ts := some now }
                 else
                   { d2 with last_credential_deleted := none,
                             last_credential_deleted_ts := none }
  let d4 := match ai_history_lines with
    | none => d3
    | some n => { d3 with ai_history_lines := some n }
  let d5 := match pref_memory_lines with
    | none => d4
    | some n => { d4 with pref_memory_lines := some n }
  match ai_model with
  | none => d5
  | some m => { d5 with ai_model := some m }

/-! ## Truncation lemmas -/

theorem dropOldest_length_le (limit : Nat) (l : List PrefEntry) :
    (dropOldest limit l).length ≤ limit := by
  induction l with
  | nil => simp [dropOldest]
  | cons x xs ih =>
    rw [dropOldest]
    split
    · exact ih
    · omega

theorem dropOldest_eq_drop (limit : Nat) (l : List PrefEntry) :
    dropOldest limit l = l.drop (l.length - limit) := by
  induction l with
  | nil => simp [dropOldest]
  | cons x xs ih =>
    rw [dropOldest]
    split
    · rename_i h
      rw [ih]
      have hlen : (x :: xs).length - limit = (xs.length - limit) + 1 := by
        simp only [List.length_cons] at h ⊢
        omega
      rw [hlen, List.drop_succ_cons]
    · rename_i h
      have hlen : (x :: xs).length - limit = 0 := by
        simp only [List.length_cons] at h ⊢
        omega
      rw [hlen, List.drop_zero]

theorem dropOldest_of_length_le (limit : Nat) (l : List PrefEntry) (h : l.length ≤ limit) :
    dropOldest limit l = l := by
  rw [dropOldest_eq_drop, Nat.sub_eq_zero_of_le h, List.drop_zero]

theorem getLast?_dropOldest (limit : Nat) (hlim : 1 ≤ limit) (l : List PrefEntry) :
    (dropOldest limit l).getLast? = l.getLast? := by
  induction l with
  | nil => rfl
  | cons x xs ih =>
    rw [dropOldest]
    split
    · rename_i h
      rw [ih]
      cases xs with
      | nil =>
        simp only [List.length_cons, List.length_nil] at h
        omega
      | cons y ys => rw [List.getLast?_cons_cons]
    · rfl

/-- C1: for every existing list, every batch of new lines and every
non-negative retention limit, the merged list's length never exceeds
the limit, and limit `0` retains nothing. -/
theorem mergePrefs_length_le (existing : List PrefEntry) (raw : List (List Char))
    (limit now : Nat) :
    (mergePrefs existing raw limit now).length ≤ limit ∧ mergePrefs existing raw 0 now = [] := by
  refine ⟨dropOldest_length_le limit _, ?_⟩
  have h := dropOldest_length_le 0 (preMerge existing raw now)
  exact List.length_eq_zero.mp (Nat.le_zero.mp h)

/-- C6: the merge truncates from the oldest end only — the retained
entries are exactly the newest `limit` entries of the pre-truncation
list, in their original relative order (a suffix of it). -/
theorem mergePrefs_truncates_oldest (existing : List PrefEntry) (raw : List (List Char))
    (limit now : Nat) :
    mergePrefs existing raw limit now
        = (preMerge existing raw now).drop ((preMerge existing raw now).length - limit)
      ∧ (mergePrefs existing raw limit now).IsSuffix (preMerge existing raw now) := by
  constructor
  · exact dropOldest_eq_drop limit _
  · rw [show mergePrefs existing raw limit now
        = (preMerge existing raw now).drop ((preMerge existing raw now).length - limit) from
        dropOldest_eq_drop limit _]
    exact List.drop_suffix _ _

/-! ## Stripping lemmas -/

theorem dropWhile_idem (p : Char → Bool) (l : List Char) :
    (l.dropWhile p).dropWhile p = l.dropWhile p := by
  induction l with
  | nil => rfl
  | cons c t ih =>
    by_cases h : p c = true
    · rw [List.dropWhile_cons_of_pos h]
      exact ih
    · rw [List.dropWhile_cons_of_neg h, List.dropWhile_cons_of_neg h]

theorem head?_dropWhile (p : Char → Bool) (l : List Char) :
    ∀ c, (l.dropWhile p).head? = some c → p c = false := by
  induction l with
  | nil => intro c hc; simp at hc
  | cons a t ih =>
    intro c hc
    by_cases h : p a = true
    · rw [List.dropWhile_cons_of_pos h] at hc
      exact ih c hc
    · rw [List.dropWhile_cons_of_neg h, List.head?_cons] at hc
      injection hc with hac
      subst hac
      simpa using h

theorem getLast?_dropWhile (p : Char → Bool) (l : List Char) :
    l.dropWhile p = [] ∨ ((l.dropWhile p).getLast? = l.getLast? ∧ l ≠ []) := by
  induction l with
  | nil => left; rfl
  | cons a t ih =>
    by_cases h : p a = true
    · rw [List.dropWhile_cons_of_pos h]
      rcases ih with h0 | ⟨h1, hne⟩
      · left; exact h0
      · right
        refine ⟨?_, List.cons_ne_nil a t⟩
        rw [h1]
        cases t with
        | nil => exact absurd rfl hne
        | cons y ys => rw [List.getLast?_cons_cons]
    · rw [List.dropWhile_cons_of_neg h]
      exact Or.inr ⟨rfl, List.cons_ne_nil a t⟩

theorem dropWhile_eq_self_of_head? (p : Char → Bool) (l : List Char)
    (h : ∀ c, l.head? = some c → p c = false) : l.dropWhile p = l := by
  cases l with
  | nil => rfl
  | cons a t =>
    have ha := h a (by rw [List.head?_cons])
    exact List.dropWhile_cons_of_neg (by simp [ha])

theorem strip_idem (l : List Char) : strip (strip l) = strip l := by
  have hBrev : (strip l).dropWhile isSpace = strip l := by
    apply dropWhile_eq_self_of_head?
    intro c hc
    unfold strip at hc
    rw [List.head?_reverse] at hc
    rcases getLast?_dropWhile isSpace (l.dropWhile isSpace).reverse with h0 | ⟨h1, _⟩
    · rw [h0] at hc
      simp at hc
    · rw [h1, List.getLast?_reverse] at hc
      exact head?_dropWhile isSpace l c hc
  calc strip (strip l)
      = (((strip l).dropWhile isSpace).reverse.dropWhile isSpace).reverse := rfl
    _ = ((strip l).reverse.dropWhile isSpace).reverse := by rw [hBrev]
    _ = strip l := by
        unfold strip
        rw [List.reverse_reverse, dropWhile_idem]

/-- Every member of `new_lines` is a stripped, non-empty line. -/
theorem newLines_mem (raw : List (List Char)) :
    ∀ x ∈ newLines raw, strip x = x ∧ x ≠ [] := by
  intro x hx
  unfold newLines at hx
  rw [List.mem_filter] at hx
  obtain ⟨hmem, hne⟩ := hx
  rw [List.mem_map] at hmem
  obtain ⟨r, _, rfl⟩ := hmem
  exact ⟨strip_idem r, by simpa using hne⟩

/-! ## The merge invariant -/

theorem goodAcc_nil : GoodAcc [] := by
  constructor
  · exact List.nodup_nil
  · intro p hp
    simp at hp

theorem keys_eraseP_ne (k : List Char) (acc : PrefAcc) (h : (acc.map Prod.fst).Nodup) :
    ∀ p ∈ acc.eraseP (fun q => decide (q.1 = k)), p.1 ≠ k := by
  induction acc with
  | nil =>
    intro p hp
    simp [List.eraseP_nil] at hp
  | cons q rest ih =>
    rw [List.map_cons, List.nodup_cons] at h
    intro p hp
    by_cases hq : q.1 = k
    · rw [List.eraseP_cons_of_pos (by simpa using hq)] at hp
      intro hk
      apply h.1
      rw [hq, ← hk]
      exact List.mem_map_of_mem Prod.fst hp
    · rw [List.eraseP_cons_of_neg (by simpa using hq)] at hp
      rcases List.mem_cons.mp hp with rfl | hp'
      · exact hq
      · exact ih h.2 p hp'

theorem goodAcc_addExisting (now : Nat) (acc : PrefAcc) (item : PrefEntry) (h : GoodAcc acc) :
    GoodAcc (addExisting now acc item) := by
  unfold addExisting
  by_cases h0 : strip item.line = []
  · simpa [h0] using h
  · rw [if_neg h0]
    by_cases h1 : acc.any (fun p => decide (p.1 = pref_key (strip item.line))) = true
    · simpa [h1] using h
    · rw [if_neg h1]
      constructor
      · rw [List.map_append]
        apply List.Nodup.append h.1 (List.nodup_singleton _)
        intro a ha hb
        simp only [List.map_cons, List.map_nil, List.mem_singleton] at hb
        subst hb
        apply h1
        rw [List.any_eq_true]
        rw [List.mem_map] at ha
        obtain ⟨p, hp, hpa⟩ := ha
        exact ⟨p, hp, by simp [hpa]⟩
      · intro p hp
        rw [List.mem_append] at hp
        rcases hp with hp | hp
        · exact h.2 p hp
        · simp only [List.mem_singleton] at hp
          subst hp
          exact ⟨rfl, strip_idem _, h0⟩

theorem goodAcc_addNew (now : Nat) (acc : PrefAcc) (nl : List Char)
    (hnl : strip nl = nl) (hne : nl ≠ []) (h : GoodAcc acc) : GoodAcc (addNew now acc nl) := by
  unfold addNew
  constructor
  · have hsub : ((acc.eraseP fun p => decide (p.1 = pref_key nl)).map Prod.fst).Sublist
        (acc.map Prod.fst) := List.Sublist.map _ (List.eraseP_sublist acc)
    rw [List.map_append]
    apply List.Nodup.append (hsub.nodup h.1) (List.nodup_singleton _)
    intro a ha hb
    simp only [List.map_cons, List.map_nil, List.mem_singleton] at hb
    subst hb
    rw [List.mem_map] at ha
    obtain ⟨p, hp, hpa⟩ := ha
    exact keys_eraseP_ne (pref_key nl) acc h.1 p hp hpa
  · intro p hp
    rw [List.mem_append] at hp
    rcases hp with hp | hp
    · exact h.2 p ((List.eraseP_sublist acc).subset hp)
    · simp only [List.mem_singleton] at hp
      subst hp
      exact ⟨rfl, hnl, hne⟩

theorem goodAcc_foldl_addExisting (now : Nat) :
    ∀ (ex : List PrefEntry) (acc : PrefAcc),
      GoodAcc acc → GoodAcc (ex.foldl (addExisting now) acc) := by
  intro ex
  induction ex with
  | nil =>
    intro acc h
    exact h
  | cons it rest ih =>
    intro acc h
    rw [List.foldl_cons]
    exact ih _ (goodAcc_addExisting now acc it h)

theorem goodAcc_foldl_addNew (now : Nat) :
    ∀ (ls : List (List Char)) (acc : PrefAcc),
      (∀ x ∈ ls, strip x = x ∧ x ≠ []) → GoodAcc acc →
      GoodAcc (ls.foldl (addNew now) acc) := by
  intro ls
  induction ls with
  | nil =>
    intro acc _ h
    exact h
  | cons x rest ih =>
    intro acc hc h
    rw [List.foldl_cons]
    refine ih _ (fun y hy => hc y (List.mem_cons_of_mem x hy)) ?_
    exact goodAcc_addNew now acc x (hc x (List.mem_cons_self x rest)).1
      (hc x (List.mem_cons_self x rest)).2 h

theorem goodAcc_mergeAcc (existing : List PrefEntry) (raw : List (List Char)) (now : Nat) :
    GoodAcc (mergeAcc existing raw now) := by
  unfold mergeAcc
  exact goodAcc_foldl_addNew now _ _ (newLines_mem raw)
    (goodAcc_foldl_addExisting now existing [] goodAcc_nil)

theorem keysOf_preMerge (existing : List PrefEntry) (raw : List (List Char)) (now : Nat) :
    keysOf (preMerge existing raw now) = (mergeAcc existing raw now).map Prod.fst := by
  unfold keysOf preMerge
  rw [List.map_map]
  apply List.map_congr_left
  intro p hp
  exact ((goodAcc_mergeAcc existing raw now).2 p hp).1

theorem keysOf_mergePrefs_nodup (existing : List PrefEntry) (raw : List (List Char))
    (limit now : Nat) : (keysOf (mergePrefs existing raw limit now)).Nodup := by
  rw [show mergePrefs existing raw limit now
      = (preMerge existing raw now).drop ((preMerge existing raw now).length - limit) from
      dropOldest_eq_drop limit _]
  unfold keysOf
  rw [List.map_drop]
  have hk := keysOf_preMerge existing raw now
  unfold keysOf at hk
  rw [hk]
  exact List.Nodup.sublist (List.drop_sublist _ _) (goodAcc_mergeAcc existing raw now).1

theorem mergePrefs_mem_canonical (existing : List PrefEntry) (raw : List (List Char))
    (limit now : Nat) :
    ∀ en ∈ mergePrefs existing raw limit now, strip en.line = en.line ∧ en.line ≠ [] := by
  intro en hen
  rw [show mergePrefs existing raw limit now
      = (preMerge existing raw now).drop ((preMerge existing raw now).length - limit) from
      dropOldest_eq_drop limit _] at hen
  have hen' : en ∈ preMerge existing raw now := List.drop_subset _ _ hen
  unfold preMerge at hen'
  rw [List.mem_map] at hen'
  obtain ⟨p, hp, rfl⟩ := hen'
  exact ⟨((goodAcc_mergeAcc existing raw now).2 p hp).2.1,
    ((goodAcc_mergeAcc existing raw now).2 p hp).2.2⟩

/-- C4: even when the stored input list contains several entries with
the same normalized key, the merged result has at most one entry per
normalized key (its key list is duplicate-free). -/
theorem mergePrefs_unique_keys (existing : List PrefEntry) (raw : List (List Char))
    (limit now : Nat) : (keysOf (mergePrefs existing raw limit now)).Nodup :=
  keysOf_mergePrefs_nodup existing raw limit now

/-! ## Upsert behaviour of the merge (C2) -/

theorem mergeAcc_append_single (existing : List PrefEntry) (pre : List (List Char))
    (nl : List Char) (now : Nat) (h : strip nl ≠ []) :
    mergeAcc existing (pre ++ [nl]) now = addNew now (mergeAcc existing pre now) (strip nl) := by
  unfold mergeAcc newLines
  rw [List.map_append, List.filter_append, List.foldl_append]
  simp only [List.map_cons, List.map_nil]
  rw [List.filter_cons_of_pos (by simpa using h), List.filter_nil,
    List.foldl_cons, List.foldl_nil]

theorem map_fst_eraseP (k : List Char) (acc : PrefAcc) :
    (acc.eraseP (fun p => decide (p.1 = k))).map Prod.fst
      = (acc.map Prod.fst).eraseP (fun x => decide (x = k)) := by
  induction acc with
  | nil => rfl
  | cons q rest ih =>
    by_cases hq : q.1 = k
    · rw [List.eraseP_cons_of_pos (by simpa using hq), List.map_cons,
        List.eraseP_cons_of_pos (by simpa using hq)]
    · rw [List.eraseP_cons_of_neg (by simpa using hq), List.map_cons, List.map_cons,
        List.eraseP_cons_of_neg (by simpa using hq), ih]

theorem preMerge_concat (existing : List PrefEntry) (pre : List (List Char))
    (nl : List Char) (now : Nat) (h : strip nl ≠ []) :
    preMerge existing (pre ++ [nl]) now
      = ((mergeAcc existing pre now).eraseP
            (fun p => decide (p.1 = pref_key (strip nl)))).map (fun p => p.2)
          ++ [⟨strip nl, now⟩] := by
  unfold preMerge
  rw [mergeAcc_append_single existing pre nl now h]
  unfold addNew
  rw [List.map_append]
  simp only [List.map_cons, List.map_nil]

theorem preMerge_concat_getLast (existing : List PrefEntry) (pre : List (List Char))
    (nl : List Char) (now : Nat) (h : strip nl ≠ []) :
    (preMerge existing (pre ++ [nl]) now).getLast? = some ⟨strip nl, now⟩ := by
  rw [preMerge_concat existing pre nl now h]
  exact List.getLast?_concat _

/-- C2: merging one more extracted line upserts it — its key is removed
from wherever it previously sat in the key order and appended as the
newest key (a novel key is simply appended), the new statement sits at
the newest position, and the only entry carrying that key is the last
written one. -/
theorem mergePrefs_replace_relocate (existing : List PrefEntry) (pre : List (List Char))
    (nl : List Char) (now : Nat) (h : strip nl ≠ []) :
    keysOf (preMerge existing (pre ++ [nl]) now)
        = (keysOf (preMerge existing pre now)).eraseP
            (fun x => decide (x = pref_key (strip nl))) ++ [pref_key (strip nl)]
      ∧ (preMerge existing (pre ++ [nl]) now).getLast? = some ⟨strip nl, now⟩
      ∧ ∀ en ∈ preMerge existing (pre ++ [nl]) now,
          pref_key en.line = pref_key (strip nl) → en = ⟨strip nl, now⟩ := by
  refine ⟨?_, preMerge_concat_getLast existing pre nl now h, ?_⟩
  · rw [keysOf_preMerge, keysOf_preMerge, mergeAcc_append_single existing pre nl now h]
    unfold addNew
    rw [List.map_append, map_fst_eraseP]
    simp only [List.map_cons, List.map_nil]
  · intro en hen hkey
    rw [preMerge_concat existing pre nl now h, List.mem_append] at hen
    rcases hen with hen | hen
    · exfalso
      rw [List.mem_map] at hen
      obtain ⟨p, hp, rfl⟩ := hen
      have h2 := ((goodAcc_mergeAcc existing pre now).2 p ((List.eraseP_sublist _).subset hp)).1
      rw [h2] at hkey
      exact keys_eraseP_ne _ _ (goodAcc_mergeAcc existing pre now).1 p hp hkey
    · simp only [List.mem_singleton] at hen
      exact hen

theorem mergePrefs_replace_relocate_witness :
    keysOf (preMerge [⟨"color is blue".data, 1⟩] ([] ++ ["color is red".data]) 5)
        = (keysOf (preMerge [⟨"color is blue".data, 1⟩] [] 5)).eraseP
            (fun x => decide (x = pref_key (strip "color is red".data)))
          ++ [pref_key (strip "color is red".data)]
      ∧ (preMerge [⟨"color is blue".data, 1⟩] ([] ++ ["color is red".data]) 5).getLast?
          = some ⟨strip "color is red".data, 5⟩
      ∧ ∀ en ∈ preMerge [⟨"color is blue".data, 1⟩] ([] ++ ["color is red".data]) 5,
          pref_key en.line = pref_key (strip "color is red".data)
            → en = ⟨strip "color is red".data, 5⟩ :=
  mergePrefs_replace_relocate [⟨"color is blue".data, 1⟩] [] ("color is red".data) 5 (by decide)

/-! ## Idempotence of the merge (C5) -/

theorem foldl_addExisting_shape (now : Nat) :
    ∀ (R : List PrefEntry) (acc : PrefAcc),
      (∀ en ∈ R, strip en.line = en.line ∧ en.line ≠ []) →
      ((acc.map Prod.fst) ++ keysOf R).Nodup →
      accShape (R.foldl (addExisting now) acc)
        = accShape acc ++ R.map (fun en => (pref_key en.line, en.line)) := by
  intro R
  induction R with
  | nil =>
    intro acc _ _
    simp
  | cons en R' ih =>
    intro acc hcanon hnodup
    have hcen := hcanon en (List.mem_cons_self en R')
    have hkeys : keysOf (en :: R') = pref_key en.line :: keysOf R' := rfl
    rw [hkeys] at hnodup
    have hk_not : pref_key en.line ∉ acc.map Prod.fst := by
      intro hk
      rcases (List.nodup_append.mp hnodup).2.2 hk (List.mem_cons_self _ _) with h
      exact h
    have hany : ¬ (acc.any (fun p => decide (p.1 = pref_key en.line)) = true) := by
      intro hany
      rw [List.any_eq_true] at hany
      obtain ⟨p, hp, hd⟩ := hany
      rw [decide_eq_true_eq] at hd
      exact hk_not (hd ▸ List.mem_map_of_mem Prod.fst hp)
    have hstep : addExisting now acc en
        = acc ++ [(pref_key en.line, ⟨en.line, if en.ts = 0 then now else en.ts⟩)] := by
      show (if strip en.line = [] then acc
        else if (acc.any fun p => decide (p.1 = pref_key (strip en.line))) = true then acc
        else acc ++ [(pref_key (strip en.line),
          ⟨strip en.line, if en.ts = 0 then now else en.ts⟩)]) = _
      rw [hcen.1, if_neg hcen.2, if_neg hany]
    have hih := ih (acc ++ [(pref_key en.line, ⟨en.line, if en.ts = 0 then now else en.ts⟩)])
      (fun y hy => hcanon y (List.mem_cons_of_mem en hy))
      (by
        rw [List.map_append, List.append_assoc]
        simpa using hnodup)
    rw [List.foldl_cons, hstep, hih]
    unfold accShape
    rw [List.map_append, List.append_assoc]
    congr 1

theorem accShape_rebuild (now : Nat) (R : List PrefEntry)
    (hcanon : ∀ en ∈ R, strip en.line = en.line ∧ en.line ≠ [])
    (hnodup : (keysOf R).Nodup) :
    accShape (R.foldl (addExisting now) []) = R.map (fun en => (pref_key en.line, en.line)) := by
  have h := foldl_addExisting_shape now R [] hcanon (by simpa using hnodup)
  simpa using h

theorem eraseP_append_singleton (k x : List Char)
    (front : List (List Char × List Char)) (hfront : ∀ q ∈ front, q.1 ≠ k) :
    (front ++ [(k, x)]).eraseP (fun q => decide (q.1 = k)) = front := by
  induction front with
  | nil =>
    rw [List.nil_append, List.eraseP_cons_of_pos (by simp)]
  | cons q rest ih =>
    rw [List.cons_append,
      List.eraseP_cons_of_neg (by simpa using hfront q (List.mem_cons_self q rest)),
      ih (fun y hy => hfront y (List.mem_cons_of_mem q hy))]

theorem linesOf_map_snd (acc : PrefAcc) :
    linesOf (acc.map (fun p => p.2)) = (accShape acc).map Prod.snd := by
  unfold linesOf accShape
  rw [List.map_map, List.map_map]
  apply List.map_congr_left
  intro p _
  rfl

theorem keysOf_eq_map_linesOf (l : List PrefEntry) :
    keysOf l = (linesOf l).map pref_key := by
  unfold keysOf linesOf
  rw [List.map_map]
  apply List.map_congr_left
  intro p _
  rfl

theorem accShape_addNew (now : Nat) (acc : PrefAcc) (nl : List Char) :
    accShape (addNew now acc nl)
      = (accShape acc).eraseP (fun q => decide (q.1 = pref_key nl)) ++ [(pref_key nl, nl)] := by
  unfold addNew accShape
  rw [List.map_append]
  simp only [List.map_cons, List.map_nil]
  congr 1
  induction acc with
  | nil => rfl
  | cons q rest ih =>
    by_cases hq : q.1 = pref_key nl
    · rw [List.eraseP_cons_of_pos (by simpa using hq), List.map_cons,
        List.eraseP_cons_of_pos (by simpa using hq)]
    · rw [List.eraseP_cons_of_neg (by simpa using hq), List.map_cons, List.map_cons,
        List.eraseP_cons_of_neg (by simpa using hq), ih]

theorem linesOf_remerge (R : List PrefEntry) (s : List Char) (now2 : Nat)
    (hs : strip s ≠ [])
    (hcanon : ∀ en ∈ R, strip en.line = en.line ∧ en.line ≠ [])
    (hnodup : (keysOf R).Nodup)
    (hlast : Option.map PrefEntry.line R.getLast? = some (strip s)) :
    linesOf (preMerge R [s] now2) = linesOf R := by
  have hRne : R ≠ [] := by
    intro h0
    rw [h0] at hlast
    simp at hlast
  have hsplit : R.dropLast ++ [R.getLast hRne] = R := List.dropLast_append_getLast hRne
  have hline : (R.getLast hRne).line = strip s := by
    rw [List.getLast?_eq_getLast R hRne] at hlast
    simpa using hlast
  have hMerge : mergeAcc R [s] now2 = addNew now2 (R.foldl (addExisting now2) []) (strip s) := by
    have h1 : mergeAcc R ([] ++ [s]) now2 = addNew now2 (mergeAcc R [] now2) (strip s) :=
      mergeAcc_append_single R [] s now2 hs
    rw [List.nil_append] at h1
    exact h1
  have hShape0 : accShape (R.foldl (addExisting now2) [])
      = R.map (fun en => (pref_key en.line, en.line)) := accShape_rebuild now2 R hcanon hnodup
  have hShapeSplit : R.map (fun en => (pref_key en.line, en.line))
      = (R.dropLast.map (fun en => (pref_key en.line, en.line)))
          ++ [(pref_key (strip s), strip s)] := by
    conv_lhs => rw [← hsplit]
    rw [List.map_append]
    simp [hline]
  have hfront : ∀ q ∈ R.dropLast.map (fun en => (pref_key en.line, en.line)),
      q.1 ≠ pref_key (strip s) := by
    intro q hq
    rw [List.mem_map] at hq
    obtain ⟨en, hen, rfl⟩ := hq
    have hkeys : keysOf R = keysOf R.dropLast ++ [pref_key (strip s)] := by
      conv_lhs => rw [← hsplit]
      unfold keysOf
      rw [List.map_append]
      simp [hline]
    rw [hkeys] at hnodup
    intro hk
    exact (List.nodup_append.mp hnodup).2.2
      (hk ▸ List.mem_map_of_mem (fun en => pref_key en.line) hen) (List.mem_singleton.mpr rfl)
  have hShape1 : accShape (mergeAcc R [s] now2) = R.map (fun en => (pref_key en.line, en.line)) := by
    rw [hMerge, accShape_addNew, hShape0, hShapeSplit,
      eraseP_append_singleton _ _ _ hfront, ← hShapeSplit]
  unfold preMerge
  rw [linesOf_map_snd, hShape1]
  unfold linesOf
  rw [List.map_map]
  apply List.map_congr_left
  intro p _
  rfl

/-- C5: merging the same statement a second time (with retention limit
at least 1) leaves the key list unchanged and keeps the statement at
the newest position, after both the first and the second merge. -/
theorem mergePrefs_idempotent (existing : List PrefEntry) (s : List Char)
    (limit now1 now2 : Nat) (hlim : 1 ≤ limit) (hs : strip s ≠ []) :
    keysOf (mergePrefs (mergePrefs existing [s] limit now1) [s] limit now2)
        = keysOf (mergePrefs existing [s] limit now1)
      ∧ Option.map PrefEntry.line
          (mergePrefs (mergePrefs existing [s] limit now1) [s] limit now2).getLast?
          = some (strip s)
      ∧ Option.map PrefEntry.line (mergePrefs existing [s] limit now1).getLast?
          = some (strip s) := by
  have hpre1 : (preMerge existing [s] now1).getLast? = some ⟨strip s, now1⟩ := by
    have h := preMerge_concat_getLast existing [] s now1 hs
    rw [List.nil_append] at h
    exact h
  have hlastR : Option.map PrefEntry.line (mergePrefs existing [s] limit now1).getLast?
      = some (strip s) := by
    show Option.map PrefEntry.line (dropOldest limit (preMerge existing [s] now1)).getLast?
      = some (strip s)
    rw [getLast?_dropOldest limit hlim, hpre1]
    rfl
  have hcanon := mergePrefs_mem_canonical existing [s] limit now1
  have hnodup := keysOf_mergePrefs_nodup existing [s] limit now1
  have hlines := linesOf_remerge (mergePrefs existing [s] limit now1) s now2 hs hcanon
    hnodup hlastR
  have hlen : (preMerge (mergePrefs existing [s] limit now1) [s] now2).length ≤ limit := by
    have h1 : (preMerge (mergePrefs existing [s] limit now1) [s] now2).length
        = (linesOf (preMerge (mergePrefs existing [s] limit now1) [s] now2)).length := by
      unfold linesOf
      rw [List.length_map]
    rw [h1, hlines]
    unfold linesOf
    rw [List.length_map]
    exact dropOldest_length_le limit _
  have hR2 : mergePrefs (mergePrefs existing [s] limit now1) [s] limit now2
      = preMerge (mergePrefs existing [s] limit now1) [s] now2 := by
    show dropOldest limit _ = _
    exact dropOldest_of_length_le limit _ hlen
  refine ⟨?_, ?_, hlastR⟩
  · rw [hR2, keysOf_eq_map_linesOf, hlines, ← keysOf_eq_map_linesOf]
  · rw [hR2]
    have h := preMerge_concat_getLast (mergePrefs existing [s] limit now1) [] s now2 hs
    rw [List.nil_append] at h
    rw [h]
    rfl

theorem mergePrefs_idempotent_witness :
    keysOf (mergePrefs (mergePrefs [⟨"mood is calm".data, 2⟩] ["x is y".data] 2 3)
          ["x is y".data] 2 4)
        = keysOf (mergePrefs [⟨"mood is calm".data, 2⟩] ["x is y".data] 2 3)
      ∧ Option.map PrefEntry.line
          (mergePrefs (mergePrefs [⟨"mood is calm".data, 2⟩] ["x is y".data] 2 3)
            ["x is y".data] 2 4).getLast?
          = some (strip "x is y".data)
      ∧ Option.map PrefEntry.line
          (mergePrefs [⟨"mood is calm".data, 2⟩] ["x is y".data] 2 3).getLast?
          = some (strip "x is y".data) :=
  mergePrefs_idempotent [⟨"mood is calm".data, 2⟩] ("x is y".data) 2 3 4 (by decide) (by decide)

/-! ## The normalized key (C3) -/

theorem splitFirstIs_eq_none_iff (l : List Char) :
    splitFirstIs l = none ↔ ∀ i, sepIs.isPrefixOf (l.drop i) = false := by
  induction l with
  | nil =>
    constructor
    · intro _ i
      rw [List.drop_nil]
      rfl
    · intro _
      rfl
  | cons c rest ih =>
    rw [splitFirstIs]
    by_cases h : sepIs.isPrefixOf (c :: rest) = true
    · rw [if_pos h]
      constructor
      · intro h0
        cases h0
      · intro hall
        have h0 := hall 0
        rw [List.drop_zero] at h0
        rw [h0] at h
        cases h
    · rw [if_neg h]
      cases hrest : splitFirstIs rest with
      | some pp =>
        constructor
        · intro h0
          cases h0
        · intro hall
          have hnone : splitFirstIs rest = none := by
            apply ih.mpr
            intro i
            have := hall (i + 1)
            rw [List.drop_succ_cons] at this
            exact this
          rw [hnone] at hrest
          cases hrest
      | none =>
        constructor
        · intro _ i
          cases i with
          | zero =>
            rw [List.drop_zero]
            exact Bool.eq_false_iff.mpr h
          | succ j =>
            rw [List.drop_succ_cons]
            exact (ih.mp hrest) j
        · intro _
          rfl

theorem splitFirstIs_eq_some (l : List Char) (pre post : List Char) :
    splitFirstIs l = some (pre, post) →
      pre = l.take pre.length
      ∧ sepIs.isPrefixOf (l.drop pre.length) = true
      ∧ ∀ j, j < pre.length → sepIs.isPrefixOf (l.drop j) = false := by
  induction l generalizing pre post with
  | nil =>
    intro h
    cases h
  | cons c rest ih =>
    intro h
    rw [splitFirstIs] at h
    by_cases hc : sepIs.isPrefixOf (c :: rest) = true
    · rw [if_pos hc] at h
      injection h with h'
      obtain ⟨rfl, rfl⟩ : pre = [] ∧ post = (c :: rest).drop sepIs.length := by
        constructor
        · exact (congrArg Prod.fst h').symm
        · exact (congrArg Prod.snd h').symm
      refine ⟨rfl, ?_, ?_⟩
      · rw [List.length_nil, List.drop_zero]
        exact hc
      · intro j hj
        cases hj
    · rw [if_neg hc] at h
      cases hrest : splitFirstIs rest with
      | none =>
        rw [hrest] at h
        cases h
      | some pp =>
        rw [hrest] at h
        obtain ⟨p2, q2⟩ := pp
        injection h with h'
        have ihh := ih p2 q2 hrest
        obtain ⟨rfl, rfl⟩ : pre = c :: p2 ∧ post = q2 := by
          constructor
          · exact (congrArg Prod.fst h').symm
          · exact (congrArg Prod.snd h').symm
        refine ⟨?_, ?_, ?_⟩
        · rw [List.length_cons, List.take_succ_cons]
          conv_lhs => rw [ihh.1]
        · rw [List.length_cons, List.drop_succ_cons]
          exact ihh.2.1
        · intro j hj
          cases j with
          | zero =>
            rw [List.drop_zero]
            exact Bool.eq_false_iff.mpr hc
          | succ j2 =>
            rw [List.drop_succ_cons]
            apply ihh.2.2 j2
            rw [List.length_cons] at hj
            omega

/-- C3 (amended): the normalized key is the substring of the lowered
line preceding the first case-insensitive occurrence of `" is "`,
additionally stripped of surrounding whitespace; a line with no such
occurrence is keyed by the whole lower-cased line. -/
theorem pref_key_spec (line : List Char) :
    ((∀ i, sepIs.isPrefixOf ((lower line).drop i) = false) → pref_key line = lower line)
    ∧ ∀ i, sepIs.isPrefixOf ((lower line).drop i) = true →
        (∀ j, j < i → sepIs.isPrefixOf ((lower line).drop j) = false) →
        pref_key line = strip ((lower line).take i) := by
  constructor
  · intro hnone
    unfold pref_key
    rw [(splitFirstIs_eq_none_iff (lower line)).mpr hnone]
  · intro i hi hmin
    unfold pref_key
    cases hsp : splitFirstIs (lower line) with
    | none =>
      exfalso
      have h0 := (splitFirstIs_eq_none_iff _).mp hsp i
      rw [h0] at hi
      cases hi
    | some pp =>
      obtain ⟨pre, post⟩ := pp
      have h2 := splitFirstIs_eq_some _ pre post hsp
      have hlen : pre.length = i := by
        rcases Nat.lt_trichotomy pre.length i with hlt | heq | hgt
        · have h3 := hmin pre.length hlt
          rw [h3] at h2
          exact absurd h2.2.1 (by simp)
        · exact heq
        · have h3 := h2.2.2 i hgt
          rw [h3] at hi
          cases hi
      rw [h2.1, hlen]

theorem pref_key_spec_witness :
    pref_key ("My Color is RED".data) = strip ((lower ("My Color is RED".data)).take 8) :=
  (pref_key_spec ("My Color is RED".data)).2 8 (by decide) (by decide)

/-- C3 counterexample: the key is not the raw lowered substring before
the first `" is "` — the code additionally strips it; on the stripped
line `"a  is b"` the code's key is `"a"` while the claim's verbatim
reading yields `"a "` (with a trailing space). -/
theorem pref_key_not_verbatim :
    pref_key ("a  is b".data) ≠ specKeyVerbatim ("a  is b".data) := by
  decide

/-! ## Credential bootstrap selector (C7, C8) -/

/-- C7: with both credentials missing, the selector prompts for the
credential named by the persisted last-deleted marker (`api_key` gives
the API-key prompt, `server_endpoint` gives the endpoint prompt) and
defaults to the API-key prompt when no marker exists — in either mode. -/
theorem selectPrompt_both_missing (m : Bool) :
    selectPrompt false false (some "api_key") m = some Prompt.forApiKey
    ∧ selectPrompt false false (some "server_endpoint") m = some Prompt.forEndpoint
    ∧ selectPrompt false false none m = some Prompt.forApiKey :=
  ⟨rfl, rfl, rfl⟩

/-- C8 counterexample: in local mode with the API key present and the
endpoint missing, the selector shows no prompt at all — it does not
prompt for the missing endpoint as the claim requires. -/
theorem selectPrompt_not_mode_independent :
    selectPrompt true false none true = none
    ∧ selectPrompt true false none true ≠ some Prompt.forEndpoint := by
  exact ⟨rfl, by decide⟩

/-- C8 (amended): with both credentials present no prompt is shown, and
with exactly one missing the selector prompts for it only when it is
the credential the active mode uses (API key in local mode, endpoint in
server mode); otherwise it shows no prompt. -/
theorem selectPrompt_partial_missing (ld : Option String) (m : Bool) :
    selectPrompt true true ld m = none
    ∧ selectPrompt false true ld true = some Prompt.forApiKey
    ∧ selectPrompt false true ld false = none
    ∧ selectPrompt true false ld true = none
    ∧ selectPrompt true false ld false = some Prompt.forEndpoint := by
  refine ⟨?_, rfl, rfl, rfl, rfl⟩
  cases m <;> rfl

/-! ## Personality presets (C9) -/

/-- C9 evaluated at the failing input: applying the stored preset
`[10, 20, 30, 40, 50, 60, 70, 80]` at startup sets `friendliness` to
`vals[4] = 50` and leaves `gender` untouched (the source assigns
`friendliness_var` twice and never `gender_var`), while the Personality
window's `apply_preset` sets `friendliness = 10` and `gender = 50` as
the claim describes. -/
theorem applyFilePresetStartup_gender_bug :
    (applyFilePresetStartup ⟨0, 0, 0, 0, 0, 0, 0, 0⟩
        (PresetJson.listVals [10, 20, 30, 40, 50, 60, 70, 80])).friendliness = 50
    ∧ (applyFilePresetStartup ⟨0, 0, 0, 0, 0, 0, 0, 0⟩
        (PresetJson.listVals [10, 20, 30, 40, 50, 60, 70, 80])).gender = 0
    ∧ (applyPresetWindow ⟨0, 0, 0, 0, 0, 0, 0, 0⟩
        ((windowLoadPreset (PresetJson.listVals [10, 20, 30, 40, 50, 60, 70, 80])).getD
          [])).friendliness = 10
    ∧ (applyPresetWindow ⟨0, 0, 0, 0, 0, 0, 0, 0⟩
        ((windowLoadPreset (PresetJson.listVals [10, 20, 30, 40, 50, 60, 70, 80])).getD
          [])).gender = 50 := by
  decide

/-! ## Settings persistence (C10) -/

/-- C10: `save_settings` overwrites only `use_local_ai` when every
optional argument is `None`; an empty `api_key` or `endpoint` removes
exactly that field; a non-empty `last_deleted` sets the marker and its
timestamp and nothing else. -/
theorem save_settings_frame (data : Settings) (ul : Bool) (s : String) (now : Nat)
    (hs : s ≠ "") :
    save_settings data ul none none none none none none now
        = { data with use_local_ai := some ul }
    ∧ save_settings data ul (some "") none none none none none now
        = { data with use_local_ai := some ul, openai_api_key := none }
    ∧ save_settings data ul none (some "") none none none none now
        = { data with use_local_ai := some ul, server_endpoint := none }
    ∧ save_settings data ul none none (some s) none none none now
        = { data with
            use_local_ai := some ul
            last_credential_deleted := some s
            last_credential_deleted_ts := some now } := by
  refine ⟨rfl, rfl, rfl, ?_⟩
  simp only [save_settings]
  rw [if_pos hs]

theorem save_settings_frame_witness :
    save_settings ⟨some true, some "k", some "e", none, none, some 5, some 6, some "m"⟩
        false none none none none none none 99
        = { (⟨some true, some "k", some "e", none, none, some 5, some 6, some "m"⟩ : Settings)
            with use_local_ai := some false }
    ∧ save_settings ⟨some true, some "k", some "e", none, none, some 5, some 6, some "m"⟩
        false (some "") none none none none none 99
        = { (⟨some true, some "k", some "e", none, none, some 5, some 6, some "m"⟩ : Settings)
            with use_local_ai := some false, openai_api_key := none }
    ∧ save_settings ⟨some true, some "k", some "e", none, none, some 5, some 6, some "m"⟩
        false none (some "") none none none none 99
        = { (⟨some true, some "k", some "e", none, none, some 5, some 6, some "m"⟩ : Settings)
            with use_local_ai := some false, server_endpoint := none }
    ∧ save_settings ⟨some true, some "k", some "e", none, none, some 5, some 6, some "m"⟩
        false none none (some "api_key") none none none 99
        = { (⟨some true, some "k", some "e", none, none, some 5, some 6, some "m"⟩ : Settings) with
            use_local_ai := some false
            last_credential_deleted := some "api_key"
            last_credential_deleted_ts := some 99 } :=
  save_settings_frame ⟨some true, some "k", some "e", none, none, some 5, some 6, some "m"⟩
    false "api_key" 99 (by decide)

end ChatMax
